import Mathlib

/-!
Shallow embedding of `coherent_rates/system.py`: a 1D periodic-substrate
quantum dynamics pipeline (potential construction, Bloch Hamiltonian,
diagonal time evolution, intermediate scattering function, thermal
sampling and ensemble averaging).

Machine floats are idealised as real numbers; numpy complex arrays of
length `n` are functions `Fin n → ℂ`; time series are Lean lists.
Randomness (`np.random.rand`) is made explicit: the drawn uniform values
are passed as a parameter.

Functions implemented in the external `surface_potential_analysis`
library (basis conversion, the diagonal Schrödinger solver, the DFT and
kinetic-term assembly) are not part of this repository's sources; they
are modelled from the specification and marked as such in their doc
comments.
-/

namespace CoherentRates

/-- Reduced Planck constant (J·s), the value of `scipy.constants.hbar`. -/
def hbar : ℝ := 1.054571817e-34

/-- Boltzmann constant (J/K), the value of `scipy.constants.k`
(imported as `k` in the source). -/
def kB : ℝ := 1.380649e-23

/-- Electron volt in joules, the value of `scipy.constants.electron_volt`. -/
def electron_volt : ℝ := 1.602176634e-19

/-- `PeriodicSystem`: the properties of a 1D periodic system. -/
structure PeriodicSystem where
  id : String
  barrier_energy : ℝ
  lattice_constant : ℝ
  mass : ℝ

/-- `PeriodicSystemConfig`: simulation-specific detail of the system.
The 1-element tuples `shape` and `resolution` are modelled by single
integers. -/
structure PeriodicSystemConfig where
  shape : ℤ
  resolution : ℤ
  n_bands : ℤ
deriving DecidableEq

/-- Error kinds named by the design (§7). -/
inductive SimulationError where
  | invalidConfig : SimulationError
  | basisMismatch : SimulationError
deriving DecidableEq

/-- Constructing a `PeriodicSystemConfig`.  The Python `@dataclass`
generates a constructor that stores the three fields and performs no
validation whatsoever, so construction always succeeds. -/
def mkPeriodicSystemConfig (shape resolution n_bands : ℤ) :
    Except SimulationError PeriodicSystemConfig :=
  Except.ok ⟨shape, resolution, n_bands⟩

/-- Modelled from the spec: §7 requires configuration construction to
fail with `InvalidConfig` when `n_bands` exceeds the available
resolution or `shape`/`resolution` has a non-positive entry.  This is
the spec's required constructor, written for comparison with
`mkPeriodicSystemConfig` above. -/
def mkPeriodicSystemConfigSpec (shape resolution n_bands : ℤ) :
    Except SimulationError PeriodicSystemConfig :=
  if resolution < n_bands ∨ shape ≤ 0 ∨ resolution ≤ 0 then
    Except.error SimulationError.invalidConfig
  else
    Except.ok ⟨shape, resolution, n_bands⟩

/-- `HYDROGEN_NICKEL_SYSTEM` module constant. -/
noncomputable def HYDROGEN_NICKEL_SYSTEM : PeriodicSystem :=
  ⟨"HNi", 2.5593864192e-20, 2.46e-10 / Real.sqrt 2, 1.67e-27⟩

/-- `SODIUM_COPPER_SYSTEM` module constant. -/
def SODIUM_COPPER_SYSTEM : PeriodicSystem :=
  ⟨"NaCu", 55e-3 * electron_volt, 3.615e-10, 3.8175458e-26⟩

/-- `LITHIUM_COPPER_SYSTEM` module constant. -/
def LITHIUM_COPPER_SYSTEM : PeriodicSystem :=
  ⟨"LiCu", 45e-3 * electron_volt, 3.615e-10, 1.152414898e-26⟩

/-- A 1D potential: the basis descriptor is reduced to the unit-cell
width `delta_x` carried by the Fourier basis, together with the vector
of Fourier amplitudes. -/
structure Potential1d where
  delta_x : ℝ
  data : List ℝ

/-- `get_potential`: the 3-harmonic Fourier potential of one unit cell,
`delta_x = sqrt(3)·lattice_constant/2` and
`vector = 0.25 · barrier_energy · [2, -1, -1] · sqrt(3)`. -/
noncomputable def get_potential (system : PeriodicSystem) : Potential1d :=
  { delta_x := Real.sqrt 3 * system.lattice_constant / 2
    data := [2, -1, -1].map (fun v => 0.25 * system.barrier_energy * v * Real.sqrt 3) }

/-- Modelled from the spec: `convert_potential_to_basis` (external
library) between a truncated momentum basis and the fundamental momentum
basis of `m` components — a lossless resampling that keeps the retained
Fourier amplitudes and fills the remaining components with zeros
(§4.1, §6). -/
def resampleFourier (d : List ℝ) (m : ℕ) : List ℝ :=
  d.take m ++ List.replicate (m - d.length) 0

/-- `get_interpolated_potential`: resamples the 3-harmonic potential
onto `resolution` Fourier components, rescaling the amplitudes by
`sqrt(resolution / old.n)` with `old.n = 3`. -/
noncomputable def get_interpolated_potential (system : PeriodicSystem)
    (resolution : ℕ) : Potential1d :=
  let potential := get_potential system
  { delta_x := potential.delta_x
    data := resampleFourier
      (potential.data.map (fun a => a * Real.sqrt ((resolution : ℝ) / 3)))
      resolution }

/-- `get_extended_interpolated_potential`: extends the interpolated
unit-cell potential across `shape` replicas; the new basis spans
`delta_x · shape` with `fundamental_n = shape · resolution`, and the
amplitudes are rescaled by `sqrt(fundamental_n / old.n)` with
`old.n = resolution`. -/
noncomputable def get_extended_interpolated_potential (system : PeriodicSystem)
    (shape resolution : ℕ) : Potential1d :=
  let interpolated := get_interpolated_potential system resolution
  { delta_x := interpolated.delta_x * shape
    data := interpolated.data.map
      (fun a => a * Real.sqrt (((shape * resolution : ℕ) : ℝ) / resolution)) }

/-- Modelled from the spec: the position-space samples of a potential
given by Fourier amplitudes — the basis-conversion collaborator of §6
(a discrete Fourier transform onto `m` position samples). -/
noncomputable def positionSpaceData (p : Potential1d) (m : ℕ) : Fin m → ℂ :=
  fun j => (1 / Real.sqrt m : ℝ) *
    ∑ i : Fin m, (p.data.getD i 0 : ℂ) *
      Complex.exp (2 * Real.pi * Complex.I * (i : ℕ) * (j : ℕ) / m)

/-- Modelled from the spec: the kinetic term of §4.5, parameterized by
the particle mass and the Bloch fraction — the position-space matrix of
the Fourier-diagonal operator with eigenvalue
`hbar²·(2π(p + bloch_fraction)/delta_x)²/(2·mass)` on mode `p`. -/
noncomputable def kineticTerm (mass bloch_fraction delta_x : ℝ) (m : ℕ) :
    Matrix (Fin m) (Fin m) ℂ :=
  fun i j => (1 / (m : ℂ)) *
    ∑ p : Fin m,
      Complex.exp (2 * Real.pi * Complex.I * (((i : ℕ) : ℂ) - ((j : ℕ) : ℂ)) * (p : ℕ) / m) *
        ((hbar ^ 2 * (2 * Real.pi * (((p : ℕ) : ℝ) + bloch_fraction) / delta_x) ^ 2
            / (2 * mass) : ℝ) : ℂ)

/-- Modelled from the spec: `total_surface_hamiltonian` (external
library) — the Hermitian Hamiltonian `kinetic term + potential as a
diagonal real-space term` of §4.5. -/
noncomputable def total_surface_hamiltonian {m : ℕ} (converted : Fin m → ℂ)
    (mass bloch_fraction delta_x : ℝ) : Matrix (Fin m) (Fin m) ℂ :=
  kineticTerm mass bloch_fraction delta_x m + Matrix.diagonal converted

/-- `_get_full_hamiltonian`: substitutes the zero Bloch fraction when
the argument is omitted (`None`), builds the extended interpolated
potential, converts it to the position basis and assembles the full
Hamiltonian. -/
noncomputable def get_full_hamiltonian (system : PeriodicSystem)
    (shape resolution : ℕ) (bloch_fraction : Option ℝ) :
    Matrix (Fin (shape * resolution)) (Fin (shape * resolution)) ℂ :=
  let bf := bloch_fraction.getD 0
  let potential := get_extended_interpolated_potential system shape resolution
  total_surface_hamiltonian
    (positionSpaceData potential (shape * resolution))
    system.mass bf potential.delta_x

/-- The conjugate-linear-in-the-first-argument inner product of two
complex amplitude vectors (§6 collaborator contract, the convention of
`calculate_inner_products_elementwise`). -/
noncomputable def innerProd {n : ℕ} (x y : Fin n → ℂ) : ℂ :=
  ∑ i, star (x i) * y i

/-- The Euclidean norm of a complex amplitude vector
(`np.linalg`-style 2-norm). -/
noncomputable def norm2 {n : ℕ} (x : Fin n → ℂ) : ℝ :=
  Real.sqrt (∑ i, Complex.normSq (x i))

/-- One time step of diagonal evolution: each eigencomponent amplitude
is multiplied by `exp(-i·eigenvalue·t/ħ)` (§4.4). -/
noncomputable def timeEvolve {n : ℕ} (eigenvalues : Fin n → ℝ) (t : ℝ)
    (ψ : Fin n → ℂ) : Fin n → ℂ :=
  fun i => Complex.exp (-(Complex.I * (eigenvalues i : ℂ) * (t : ℂ)) / (hbar : ℂ)) * ψ i

/-- Modelled from the spec: `solve_schrodinger_equation_diagonal`
(external library), the Propagator of §4.4 — for each timestamp `t` of
`times`, in order, multiply each eigencomponent amplitude of the state
(already expressed in the eigenbasis) by `exp(-i·eigenvalue·t/ħ)`. -/
noncomputable def solve_schrodinger_equation_diagonal {n : ℕ} (ψ : Fin n → ℂ)
    (times : List ℝ) (eigenvalues : Fin n → ℝ) : List (Fin n → ℂ) :=
  times.map (fun t => timeEvolve eigenvalues t ψ)

/-- Modelled from the spec: `convert_state_vector_to_basis` (external
library) into the eigenbasis of the diagonal Hamiltonian — fails with
`BasisMismatch` when the dimensions are incompatible (§4.4, §7); states
are identified by their eigencomponent coordinates, so at matching
dimension the conversion is the identity on those coordinates (§6:
lossless conversion). -/
def convert_state_vector_to_basis {m n : ℕ} (ψ : Fin m → ℂ) :
    Except SimulationError (Fin n → ℂ) :=
  if h : m = n then Except.ok (fun i => ψ (Fin.cast h.symm i))
  else Except.error SimulationError.basisMismatch

/-- `solve_schrodinger_equation`, with the diagonal Hamiltonian
`get_hamiltonian(system, config)` abstracted by its eigenvalue vector:
convert the initial state into the eigenbasis, then run the diagonal
solver over `times`. -/
noncomputable def solve_schrodinger_equation {m n : ℕ} (eigenvalues : Fin n → ℝ)
    (initial_state : Fin m → ℂ) (times : List ℝ) :
    Except SimulationError (List (Fin n → ℂ)) :=
  (convert_state_vector_to_basis initial_state).map
    (fun converted => solve_schrodinger_equation_diagonal converted times eigenvalues)

/-- `get_isf_from_hamiltonian` (at matching dimensions, where the two
basis conversions are the identity on eigencomponent coordinates): per
timestamp `t`, the inner product
`⟨scattered_evolved(t) | evolved_scattered(t)⟩` of the
operator-then-evolve and evolve-then-operator states. -/
noncomputable def get_isf_from_hamiltonian {n : ℕ} (eigenvalues : Fin n → ℝ)
    (operator : Matrix (Fin n) (Fin n) ℂ) (initial_state : Fin n → ℂ)
    (times : List ℝ) : List ℂ :=
  times.map (fun t =>
    innerProd
      (timeEvolve eigenvalues t (operator.mulVec initial_state))
      (operator.mulVec (timeEvolve eigenvalues t initial_state)))

/-- The per-eigencomponent Boltzmann factor `exp(-E_i/(2·k·T))`
(`np.exp(-hamiltonian["data"] / (2 * k * temperature))`). -/
noncomputable def boltzmannDistribution {n : ℕ} (eigenvalues : Fin n → ℝ)
    (temperature : ℝ) : Fin n → ℝ :=
  fun i => Real.exp (-(eigenvalues i) / (2 * kB * temperature))

/-- `normalization = sqrt(sum(square(boltzmann_distribution)))`. -/
noncomputable def boltzmannNormalization {n : ℕ} (eigenvalues : Fin n → ℝ)
    (temperature : ℝ) : ℝ :=
  Real.sqrt (∑ i, (boltzmannDistribution eigenvalues temperature i) ^ 2)

/-- `get_random_boltzmann_state`, with the values drawn from
`np.random.rand` passed explicitly as `randDraws` (each uniform in
`[0,1)`): component `i` is
`boltzmann_distribution_i · exp(2πi·randDraws_i) / normalization`.  The
diagonal Hamiltonian is abstracted by its eigenvalue vector. -/
noncomputable def get_random_boltzmann_state {n : ℕ} (eigenvalues : Fin n → ℝ)
    (temperature : ℝ) (randDraws : Fin n → ℝ) : Fin n → ℂ :=
  fun i => (boltzmannDistribution eigenvalues temperature i : ℂ) *
    Complex.exp (2 * Real.pi * Complex.I * (randDraws i : ℂ)) /
    (boltzmannNormalization eigenvalues temperature : ℂ)

/-- `get_boltzmann_state`: identical magnitudes, one shared
caller-supplied phase `exp(i·phase)`. -/
noncomputable def get_boltzmann_state {n : ℕ} (eigenvalues : Fin n → ℝ)
    (temperature phase : ℝ) : Fin n → ℂ :=
  fun i => (boltzmannDistribution eigenvalues temperature i : ℂ) *
    Complex.exp (Complex.I * (phase : ℂ)) /
    (boltzmannNormalization eigenvalues temperature : ℂ)

/-- `get_average_boltzmann_isf`, with the Hamiltonian (built once) given
by its eigenvalue vector, the scattering operator (built once) given as
a matrix, and the per-sample random draws given by `randDraws`: starting
from `np.zeros(times.n)`, accumulate the ISF of `nsamples` random
Boltzmann states computed via the Hamiltonian-reuse variant, then divide
by `nsamples`. -/
noncomputable def get_average_boltzmann_isf {n : ℕ} (eigenvalues : Fin n → ℝ)
    (operator : Matrix (Fin n) (Fin n) ℂ) (times : List ℝ)
    (temperature : ℝ) (nsamples : ℕ) (randDraws : ℕ → Fin n → ℝ) : List ℂ :=
  let accumulated := (List.range nsamples).foldl
    (fun isf_data i => List.zipWith (· + ·) isf_data
      (get_isf_from_hamiltonian eigenvalues operator
        (get_random_boltzmann_state eigenvalues temperature (randDraws i)) times))
    (List.replicate times.length 0)
  accumulated.map (fun z => z / (nsamples : ℂ))

/-- A concrete one-dimensional eigenvalue vector, used to instantiate
theorems at a concrete input. -/
def exampleEigenvalues : Fin 1 → ℝ := fun _ => 0

/-- A concrete one-dimensional state, used to instantiate theorems at a
concrete input. -/
def exampleState : Fin 1 → ℂ := fun _ => 1

/-- A concrete stream of random draws, used to instantiate theorems at a
concrete input. -/
def exampleDraws : ℕ → Fin 1 → ℝ := fun _ _ => 0

/-! ## Helper lemmas -/

lemma getD_map_lt {α β : Type} (f : α → β) (l : List α) (dα : α) (dβ : β)
    (j : ℕ) (hj : j < l.length) : (l.map f).getD j dβ = f (l.getD j dα) := by
  induction l generalizing j with
  | nil => simp at hj
  | cons a l ih =>
    cases j with
    | zero => rfl
    | succ j => exact ih j (Nat.lt_of_succ_lt_succ hj)

lemma resampleFourier_length (d : List ℝ) : resampleFourier d d.length = d := by
  unfold resampleFourier
  rw [List.take_length, Nat.sub_self, List.replicate_zero, List.append_nil]

lemma abs_evolution_phase (a t : ℝ) :
    Complex.abs (Complex.exp (-(Complex.I * (a : ℂ) * (t : ℂ)) / (hbar : ℂ))) = 1 := by
  have h : -(Complex.I * (a : ℂ) * (t : ℂ)) / (hbar : ℂ)
      = ((-(a * t / hbar) : ℝ) : ℂ) * Complex.I := by
    push_cast
    ring
  rw [h, Complex.abs_exp_ofReal_mul_I]

lemma normSq_evolution_phase (a t : ℝ) :
    Complex.normSq (Complex.exp (-(Complex.I * (a : ℂ) * (t : ℂ)) / (hbar : ℂ))) = 1 := by
  rw [Complex.normSq_eq_abs, abs_evolution_phase]
  norm_num

lemma norm2_timeEvolve {n : ℕ} (eigenvalues : Fin n → ℝ) (t : ℝ) (ψ : Fin n → ℂ) :
    norm2 (timeEvolve eigenvalues t ψ) = norm2 ψ := by
  unfold norm2 timeEvolve
  congr 1
  refine Finset.sum_congr rfl (fun i _ => ?_)
  rw [Complex.normSq_mul, normSq_evolution_phase, one_mul]

lemma timeEvolve_zero {n : ℕ} (eigenvalues : Fin n → ℝ) (ψ : Fin n → ℂ) :
    timeEvolve eigenvalues 0 ψ = ψ := by
  funext i
  simp [timeEvolve]

lemma innerProd_eq_dotProduct {n : ℕ} (x y : Fin n → ℂ) :
    innerProd x y = Matrix.dotProduct (star x) y := rfl

lemma innerProd_mulVec {n : ℕ} (A : Matrix (Fin n) (Fin n) ℂ) (x y : Fin n → ℂ) :
    innerProd (A.mulVec x) (A.mulVec y) = innerProd x ((A.conjTranspose * A).mulVec y) := by
  rw [innerProd_eq_dotProduct, innerProd_eq_dotProduct, Matrix.star_mulVec,
    Matrix.dotProduct_mulVec, Matrix.vecMul_vecMul, ← Matrix.dotProduct_mulVec]

lemma conjTranspose_mul_self_of_unitary {n : ℕ} {A : Matrix (Fin n) (Fin n) ℂ}
    (hA : A ∈ Matrix.unitaryGroup (Fin n) ℂ) : A.conjTranspose * A = 1 := by
  have h := Matrix.mem_unitaryGroup_iff'.mp hA
  rwa [Matrix.star_eq_conjTranspose] at h

lemma innerProd_mulVec_unitary {n : ℕ} {A : Matrix (Fin n) (Fin n) ℂ}
    (hA : A ∈ Matrix.unitaryGroup (Fin n) ℂ) (x y : Fin n → ℂ) :
    innerProd (A.mulVec x) (A.mulVec y) = innerProd x y := by
  rw [innerProd_mulVec, conjTranspose_mul_self_of_unitary hA, Matrix.one_mulVec]

lemma innerProd_self {n : ℕ} (x : Fin n → ℂ) :
    innerProd x x = ((∑ i, Complex.normSq (x i) : ℝ) : ℂ) := by
  unfold innerProd
  rw [Complex.ofReal_sum]
  refine Finset.sum_congr rfl (fun i _ => ?_)
  rw [Complex.normSq_eq_conj_mul_self, Complex.star_def]

lemma norm2_mulVec_unitary {n : ℕ} {A : Matrix (Fin n) (Fin n) ℂ}
    (hA : A ∈ Matrix.unitaryGroup (Fin n) ℂ) (x : Fin n → ℂ) :
    norm2 (A.mulVec x) = norm2 x := by
  unfold norm2
  congr 1
  have h := innerProd_mulVec_unitary hA x x
  rw [innerProd_self, innerProd_self] at h
  exact_mod_cast h

lemma innerProd_eq_inner {n : ℕ} (x y : Fin n → ℂ) :
    innerProd x y = (inner ((WithLp.equiv 2 (Fin n → ℂ)).symm x)
      ((WithLp.equiv 2 (Fin n → ℂ)).symm y) : ℂ) := by
  rw [PiLp.inner_apply]
  refine Finset.sum_congr rfl (fun i _ => ?_)
  rw [RCLike.inner_apply, WithLp.equiv_symm_pi_apply, WithLp.equiv_symm_pi_apply]
  rfl

lemma norm2_eq_norm {n : ℕ} (x : Fin n → ℂ) :
    norm2 x = ‖(WithLp.equiv 2 (Fin n → ℂ)).symm x‖ := by
  rw [EuclideanSpace.norm_eq]
  unfold norm2
  congr 1
  refine Finset.sum_congr rfl (fun i _ => ?_)
  rw [WithLp.equiv_symm_pi_apply, Complex.norm_eq_abs, Complex.sq_abs]

lemma abs_innerProd_le {n : ℕ} (x y : Fin n → ℂ) :
    Complex.abs (innerProd x y) ≤ norm2 x * norm2 y := by
  rw [innerProd_eq_inner, norm2_eq_norm, norm2_eq_norm, ← Complex.norm_eq_abs]
  exact norm_inner_le_norm _ _

lemma abs_unit_phase_rand (r : ℝ) :
    Complex.abs (Complex.exp (2 * Real.pi * Complex.I * (r : ℂ))) = 1 := by
  have h : 2 * Real.pi * Complex.I * (r : ℂ)
      = ((2 * Real.pi * r : ℝ) : ℂ) * Complex.I := by
    push_cast
    ring
  rw [h, Complex.abs_exp_ofReal_mul_I]

lemma abs_unit_phase_fixed (φ : ℝ) :
    Complex.abs (Complex.exp (Complex.I * (φ : ℂ))) = 1 := by
  have h : Complex.I * (φ : ℂ) = ((φ : ℝ) : ℂ) * Complex.I := by
    ring
  rw [h, Complex.abs_exp_ofReal_mul_I]

lemma abs_state_component (b N : ℝ) (hb : 0 ≤ b) (hN : 0 ≤ N) (z : ℂ)
    (hz : Complex.abs z = 1) : Complex.abs ((b : ℂ) * z / (N : ℂ)) = b / N := by
  rw [map_div₀, map_mul, hz, mul_one, Complex.abs_ofReal, Complex.abs_ofReal,
    abs_of_nonneg hb, abs_of_nonneg hN]

lemma boltzmannDistribution_nonneg {n : ℕ} (eigenvalues : Fin n → ℝ)
    (temperature : ℝ) (i : Fin n) :
    0 ≤ boltzmannDistribution eigenvalues temperature i :=
  Real.exp_nonneg _

lemma abs_random_boltzmann_component {n : ℕ} (eigenvalues : Fin n → ℝ)
    (temperature : ℝ) (randDraws : Fin n → ℝ) (i : Fin n) :
    Complex.abs (get_random_boltzmann_state eigenvalues temperature randDraws i)
      = boltzmannDistribution eigenvalues temperature i
        / boltzmannNormalization eigenvalues temperature :=
  abs_state_component _ _ (boltzmannDistribution_nonneg _ _ _) (Real.sqrt_nonneg _)
    _ (abs_unit_phase_rand (randDraws i))

lemma abs_boltzmann_component {n : ℕ} (eigenvalues : Fin n → ℝ)
    (temperature phase : ℝ) (i : Fin n) :
    Complex.abs (get_boltzmann_state eigenvalues temperature phase i)
      = boltzmannDistribution eigenvalues temperature i
        / boltzmannNormalization eigenvalues temperature :=
  abs_state_component _ _ (boltzmannDistribution_nonneg _ _ _) (Real.sqrt_nonneg _)
    _ (abs_unit_phase_fixed phase)

lemma norm2_of_abs_eq {n : ℕ} (x : Fin n → ℂ) (g : Fin n → ℝ)
    (h : ∀ i, Complex.abs (x i) = g i) :
    norm2 x = Real.sqrt (∑ i, (g i) ^ 2) := by
  unfold norm2
  congr 1
  refine Finset.sum_congr rfl (fun i _ => ?_)
  rw [← Complex.sq_abs, h]

lemma boltzmann_norm_core {n : ℕ} (eigenvalues : Fin n → ℝ) (temperature : ℝ)
    (hn : 0 < n) :
    Real.sqrt (∑ i, (boltzmannDistribution eigenvalues temperature i
      / boltzmannNormalization eigenvalues temperature) ^ 2) = 1 := by
  have hS : 0 < ∑ i, (boltzmannDistribution eigenvalues temperature i) ^ 2 := by
    haveI : Nonempty (Fin n) := Fin.pos_iff_nonempty.mp hn
    exact Finset.sum_pos (fun i _ => pow_pos (Real.exp_pos _) 2) Finset.univ_nonempty
  have hsq : (boltzmannNormalization eigenvalues temperature) ^ 2
      = ∑ i, (boltzmannDistribution eigenvalues temperature i) ^ 2 :=
    Real.sq_sqrt (Finset.sum_nonneg fun i _ => sq_nonneg _)
  have h1 : ∑ i, (boltzmannDistribution eigenvalues temperature i
      / boltzmannNormalization eigenvalues temperature) ^ 2 = 1 := by
    simp only [div_pow]
    rw [← Finset.sum_div, hsq, div_self hS.ne']
  rw [h1, Real.sqrt_one]

lemma sqrt_exp_neg (e c T : ℝ) :
    Real.sqrt (Real.exp (-e / (c * T))) = Real.exp (-e / (2 * c * T)) := by
  have h : Real.exp (-e / (c * T)) = (Real.exp (-e / (2 * c * T))) ^ 2 := by
    rw [← Real.exp_nat_mul]
    congr 1
    push_cast
    ring
  rw [h, Real.sqrt_sq (Real.exp_nonneg _)]

lemma isf_length {n : ℕ} (eigenvalues : Fin n → ℝ)
    (operator : Matrix (Fin n) (Fin n) ℂ) (initial_state : Fin n → ℂ)
    (times : List ℝ) :
    (get_isf_from_hamiltonian eigenvalues operator initial_state times).length
      = times.length :=
  List.length_map _ _

lemma zipWith_add_getD (a b : List ℂ) (j : ℕ) (h : a.length = b.length) :
    (List.zipWith (· + ·) a b).getD j 0 = a.getD j 0 + b.getD j 0 := by
  induction a generalizing b j with
  | nil =>
    cases b with
    | nil => simp
    | cons y ys => simp at h
  | cons x xs ih =>
    cases b with
    | nil => simp at h
    | cons y ys =>
      cases j with
      | zero => rfl
      | succ j => exact ih ys j (Nat.succ_injective h)

lemma getD_replicate_zero (len j : ℕ) :
    (List.replicate len (0 : ℂ)).getD j 0 = 0 := by
  induction len generalizing j with
  | zero => rfl
  | succ len ih =>
    cases j with
    | zero => rfl
    | succ j => exact ih j

lemma map_div_getD (l : List ℂ) (c : ℂ) (j : ℕ) :
    (l.map (fun z => z / c)).getD j 0 = l.getD j 0 / c := by
  by_cases h : j < l.length
  · rw [getD_map_lt _ _ 0 _ j h]
  · have h1 : l.length ≤ j := le_of_not_lt h
    rw [List.getD_eq_default _ _ (by rwa [List.length_map]),
      List.getD_eq_default _ _ h1, zero_div]

lemma sum_map_range (f : ℕ → ℂ) (k : ℕ) :
    ((List.range k).map f).sum = ∑ i in Finset.range k, f i := by
  induction k with
  | zero => simp
  | succ k ih =>
    rw [List.range_succ, List.map_append, List.sum_append, Finset.sum_range_succ, ih]
    simp

lemma foldl_accumulate (g : ℕ → List ℂ) (len : ℕ) (hg : ∀ i, (g i).length = len)
    (l : List ℕ) (init : List ℂ) (hinit : init.length = len) (j : ℕ) :
    (l.foldl (fun acc i => List.zipWith (· + ·) acc (g i)) init).getD j 0
        = init.getD j 0 + (l.map (fun i => (g i).getD j 0)).sum
    ∧ (l.foldl (fun acc i => List.zipWith (· + ·) acc (g i)) init).length = len := by
  induction l generalizing init with
  | nil => simp [hinit]
  | cons i l ih =>
    have hlen : (List.zipWith (· + ·) init (g i)).length = len := by
      rw [List.length_zipWith, hinit, hg i, min_self]
    have h2 := ih (List.zipWith (· + ·) init (g i)) hlen
    refine ⟨?_, h2.2⟩
    rw [List.foldl_cons, h2.1, zipWith_add_getD init (g i) j (by rw [hinit, hg i]),
      List.map_cons, List.sum_cons]
    ring

lemma zipWith_add_replicate_zero (l : List ℂ) :
    List.zipWith (· + ·) (List.replicate l.length (0 : ℂ)) l = l := by
  induction l with
  | nil => rfl
  | cons x xs ih => simp [List.replicate_succ, ih]

/-! ## Claim theorems -/

/-- C1: for every diagonal Hamiltonian (given by its eigenvalue vector),
every initial state of compatible dimension, and every timestamp list
`times`, `solve_schrodinger_equation` converts the initial state into
the eigenbasis and returns one state per timestamp, in the order of
`times`, whose i-th eigencomponent amplitude is the initial i-th
eigencomponent amplitude multiplied by `exp(-i·E_i·t/ħ)`. -/
theorem solve_schrodinger_equation_spec {m n : ℕ} (eigenvalues : Fin n → ℝ)
    (ψ : Fin m → ℂ) (times : List ℝ) (h : m = n) :
    ∃ states : List (Fin n → ℂ),
      solve_schrodinger_equation eigenvalues ψ times = Except.ok states ∧
      states.length = times.length ∧
      ∀ j, j < times.length → ∀ i : Fin n,
        states.getD j (fun _ => 0) i
          = Complex.exp (-(Complex.I * (eigenvalues i : ℂ) * ((times.getD j 0 : ℝ) : ℂ))
              / (hbar : ℂ)) * ψ (Fin.cast h.symm i) := by
  refine ⟨solve_schrodinger_equation_diagonal (fun i => ψ (Fin.cast h.symm i))
    times eigenvalues, ?_, List.length_map _ _, ?_⟩
  · unfold solve_schrodinger_equation convert_state_vector_to_basis
    rw [dif_pos h]
    rfl
  · intro j hj i
    unfold solve_schrodinger_equation_diagonal
    rw [getD_map_lt _ _ 0 _ j hj]
    rfl

/-- Witness for C1: a concrete one-dimensional system, a single
timestamp. -/
theorem solve_schrodinger_equation_spec_witness :
    ∃ states : List (Fin 1 → ℂ),
      solve_schrodinger_equation exampleEigenvalues exampleState [0] = Except.ok states ∧
      states.length = ([(0 : ℝ)]).length ∧
      ∀ j, j < ([(0 : ℝ)]).length → ∀ i : Fin 1,
        states.getD j (fun _ => 0) i
          = Complex.exp (-(Complex.I * (exampleEigenvalues i : ℂ)
              * ((([(0 : ℝ)]).getD j 0 : ℝ) : ℂ)) / (hbar : ℂ))
            * exampleState (Fin.cast rfl i) :=
  solve_schrodinger_equation_spec exampleEigenvalues exampleState [0] rfl

/-- C2: each state returned by the diagonal solver has the same norm as
the initial state, for any real eigenvalue vector (Hermitian diagonal
Hamiltonian) and any `times` list, including empty and single-element
lists: diagonal time evolution is a norm-preserving phase rotation. -/
theorem solve_preserves_norm {n : ℕ} (eigenvalues : Fin n → ℝ) (ψ : Fin n → ℂ)
    (times : List ℝ) (φ : Fin n → ℂ)
    (hφ : φ ∈ solve_schrodinger_equation_diagonal ψ times eigenvalues) :
    norm2 φ = norm2 ψ := by
  rcases List.mem_map.mp hφ with ⟨t, _ht, rfl⟩
  exact norm2_timeEvolve eigenvalues t ψ

/-- Witness for C2 at a concrete input. -/
theorem solve_preserves_norm_witness :
    norm2 (timeEvolve exampleEigenvalues 0 exampleState) = norm2 exampleState :=
  solve_preserves_norm exampleEigenvalues exampleState [0]
    (timeEvolve exampleEigenvalues 0 exampleState)
    (by simp [solve_schrodinger_equation_diagonal])

/-- C6 counterexample: the dataclass constructor accepts
`shape = (0,)`, `resolution = (0,)`, `n_bands = 5` (non-positive shape
and resolution, and `n_bands` exceeding the resolution) without any
error, while the specified constructor would fail with InvalidConfig. -/
theorem mkConfig_no_validation_counterexample :
    mkPeriodicSystemConfig 0 0 5 = Except.ok ⟨0, 0, 5⟩
    ∧ mkPeriodicSystemConfigSpec 0 0 5
        = Except.error SimulationError.invalidConfig := by
  constructor
  · rfl
  · rfl

/-- C6 (amended): constructing a `PeriodicSystemConfig` performs no
validation at all — it always succeeds, storing the given fields, for
every `shape`, `resolution` and `n_bands` (no InvalidConfig check exists
at construction time). -/
theorem mkConfig_always_ok (shape resolution n_bands : ℤ) :
    mkPeriodicSystemConfig shape resolution n_bands
      = Except.ok ⟨shape, resolution, n_bands⟩ := rfl

/-- C7: for every `PeriodicSystem`, `get_potential` returns a 3-component
Fourier potential over a unit cell of width
`sqrt(3)·lattice_constant/2`, with amplitudes proportional to
`{2, -1, -1}·barrier_energy` (factor `sqrt(3)/4`) and summing to zero. -/
theorem get_potential_spec (system : PeriodicSystem) :
    (get_potential system).delta_x = Real.sqrt 3 * system.lattice_constant / 2
    ∧ (get_potential system).data.length = 3
    ∧ (get_potential system).data
        = [2, -1, -1].map (fun v => Real.sqrt 3 / 4 * (system.barrier_energy * v))
    ∧ (get_potential system).data.sum = 0 := by
  refine ⟨rfl, rfl, ?_, ?_⟩
  · simp only [get_potential, List.map_cons, List.map_nil, List.cons.injEq, and_true]
    refine ⟨by ring, by ring, by ring⟩
  · simp only [get_potential, List.map_cons, List.map_nil, List.sum_cons, List.sum_nil]
    ring

/-- C8: for every `PeriodicSystem`, interpolating at resolution 3
reproduces `get_potential` exactly — the documented rescaling factor
`sqrt(resolution/3)` equals 1 at resolution 3. -/
theorem get_interpolated_potential_roundtrip (system : PeriodicSystem) :
    get_interpolated_potential system 3 = get_potential system
    ∧ Real.sqrt (((3 : ℕ) : ℝ) / 3) = 1 := by
  have hs : Real.sqrt (((3 : ℕ) : ℝ) / 3) = 1 := by
    rw [show ((3 : ℕ) : ℝ) / 3 = 1 by norm_num, Real.sqrt_one]
  refine ⟨?_, hs⟩
  show Potential1d.mk (get_potential system).delta_x
      (resampleFourier ((get_potential system).data.map
        (fun a => a * Real.sqrt (((3 : ℕ) : ℝ) / 3))) 3) = get_potential system
  rw [hs]
  simp only [mul_one, List.map_id']
  have hl : (get_potential system).data.length = 3 := rfl
  rw [← hl, resampleFourier_length]

/-- C3: for every diagonal Hamiltonian, scattering operator and initial
state, the ISF value at every timestamp equal to 0 is
`⟨initial_state | operator†·operator | initial_state⟩`; and for a
unit-norm initial state and a unitary scattering operator the magnitude
of every returned ISF value is at most 1. -/
theorem get_isf_spec {n : ℕ} (eigenvalues : Fin n → ℝ)
    (operator : Matrix (Fin n) (Fin n) ℂ) (initial_state : Fin n → ℂ)
    (times : List ℝ) :
    (∀ j, j < times.length → times.getD j 0 = 0 →
      (get_isf_from_hamiltonian eigenvalues operator initial_state times).getD j 0
        = innerProd initial_state
            ((operator.conjTranspose * operator).mulVec initial_state))
    ∧ (norm2 initial_state = 1 → operator ∈ Matrix.unitaryGroup (Fin n) ℂ →
      ∀ z ∈ get_isf_from_hamiltonian eigenvalues operator initial_state times,
        Complex.abs z ≤ 1) := by
  constructor
  · intro j hj ht
    unfold get_isf_from_hamiltonian
    rw [getD_map_lt _ _ 0 _ j hj, ht, timeEvolve_zero, timeEvolve_zero,
      innerProd_mulVec]
  · intro hψ hA z hz
    unfold get_isf_from_hamiltonian at hz
    rcases List.mem_map.mp hz with ⟨t, _ht, rfl⟩
    calc Complex.abs (innerProd
          (timeEvolve eigenvalues t (operator.mulVec initial_state))
          (operator.mulVec (timeEvolve eigenvalues t initial_state)))
        ≤ norm2 (timeEvolve eigenvalues t (operator.mulVec initial_state))
            * norm2 (operator.mulVec (timeEvolve eigenvalues t initial_state)) :=
          abs_innerProd_le _ _
      _ = norm2 initial_state * norm2 initial_state := by
          rw [norm2_timeEvolve, norm2_mulVec_unitary hA, norm2_mulVec_unitary hA,
            norm2_timeEvolve]
      _ ≤ 1 := by
          rw [hψ]
          norm_num

/-- Witness for C3: the identity scattering operator on a concrete
one-dimensional unit-norm state, at the single timestamp 0. -/
theorem get_isf_spec_witness :
    (get_isf_from_hamiltonian exampleEigenvalues 1 exampleState [0]).getD 0 0
      = innerProd exampleState
          (((1 : Matrix (Fin 1) (Fin 1) ℂ).conjTranspose * 1).mulVec exampleState)
    ∧ Complex.abs (innerProd
        (timeEvolve exampleEigenvalues 0 ((1 : Matrix (Fin 1) (Fin 1) ℂ).mulVec exampleState))
        ((1 : Matrix (Fin 1) (Fin 1) ℂ).mulVec (timeEvolve exampleEigenvalues 0 exampleState)))
      ≤ 1 :=
  ⟨(get_isf_spec exampleEigenvalues 1 exampleState [0]).1 0 (by decide) rfl,
   (get_isf_spec exampleEigenvalues 1 exampleState [0]).2
     (by simp [norm2, exampleState])
     (one_mem _)
     _
     (by simp [get_isf_from_hamiltonian])⟩

/-- C4: `get_average_boltzmann_isf` — with the Hamiltonian and operator
built once and shared by all samples — draws `nsamples` random
Boltzmann states (one per entry of the random stream) and returns the
component-wise arithmetic mean of their ISF sequences computed via the
Hamiltonian-reuse variant; with `nsamples = 1` the result is exactly the
ISF of the single drawn sample. -/
theorem average_boltzmann_isf_spec {n : ℕ} (eigenvalues : Fin n → ℝ)
    (operator : Matrix (Fin n) (Fin n) ℂ) (times : List ℝ) (temperature : ℝ)
    (nsamples : ℕ) (randDraws : ℕ → Fin n → ℝ) :
    (∀ j, j < times.length →
      (get_average_boltzmann_isf eigenvalues operator times temperature
          nsamples randDraws).getD j 0
        = (∑ i in Finset.range nsamples,
            (get_isf_from_hamiltonian eigenvalues operator
              (get_random_boltzmann_state eigenvalues temperature (randDraws i))
              times).getD j 0) / (nsamples : ℂ))
    ∧ (nsamples = 1 →
      get_average_boltzmann_isf eigenvalues operator times temperature
          nsamples randDraws
        = get_isf_from_hamiltonian eigenvalues operator
            (get_random_boltzmann_state eigenvalues temperature (randDraws 0))
            times) := by
  constructor
  · intro j _hj
    unfold get_average_boltzmann_isf
    rw [map_div_getD]
    have hfold := foldl_accumulate
      (fun i => get_isf_from_hamiltonian eigenvalues operator
        (get_random_boltzmann_state eigenvalues temperature (randDraws i)) times)
      times.length
      (fun i => isf_length _ _ _ _)
      (List.range nsamples)
      (List.replicate times.length 0)
      (List.length_replicate _ _)
      j
    rw [hfold.1, getD_replicate_zero, zero_add, sum_map_range]
  · intro h
    subst h
    unfold get_average_boltzmann_isf
    rw [show List.range 1 = [0] from rfl]
    simp only [List.foldl_cons, List.foldl_nil]
    rw [show times.length = (get_isf_from_hamiltonian eigenvalues operator
        (get_random_boltzmann_state eigenvalues temperature (randDraws 0))
        times).length from (isf_length _ _ _ _).symm,
      zipWith_add_replicate_zero]
    simp

/-- Witness for C4: one sample, one timestamp, on the concrete
one-dimensional system, with the identity scattering operator. -/
theorem average_boltzmann_isf_spec_witness :
    (get_average_boltzmann_isf exampleEigenvalues 1 [0] 1 1 exampleDraws).getD 0 0
      = (∑ i in Finset.range 1,
          (get_isf_from_hamiltonian exampleEigenvalues 1
            (get_random_boltzmann_state exampleEigenvalues 1 (exampleDraws i))
            [0]).getD 0 0) / ((1 : ℕ) : ℂ)
    ∧ get_average_boltzmann_isf exampleEigenvalues 1 [0] 1 1 exampleDraws
      = get_isf_from_hamiltonian exampleEigenvalues 1
          (get_random_boltzmann_state exampleEigenvalues 1 (exampleDraws 0)) [0] :=
  ⟨(average_boltzmann_isf_spec exampleEigenvalues 1 [0] 1 1 exampleDraws).1
      0 (by decide),
   (average_boltzmann_isf_spec exampleEigenvalues 1 [0] 1 1 exampleDraws).2 rfl⟩

/-- C5: for every diagonal Hamiltonian (eigenvalues `E`), temperature
`T > 0` and non-degenerate dimension, both Boltzmann state constructors
return a unit-norm state whose i-th component magnitude is
`sqrt(exp(-E_i/(k_B·T)))` divided by the global normalization, and all
component populations are non-negative. -/
theorem boltzmann_state_spec {n : ℕ} (eigenvalues : Fin n → ℝ)
    (temperature : ℝ) (randDraws : Fin n → ℝ) (phase : ℝ)
    (hn : 0 < n) (_hT : 0 < temperature) :
    norm2 (get_random_boltzmann_state eigenvalues temperature randDraws) = 1
    ∧ norm2 (get_boltzmann_state eigenvalues temperature phase) = 1
    ∧ (∀ i, Complex.abs (get_random_boltzmann_state eigenvalues temperature randDraws i)
        = Real.sqrt (Real.exp (-(eigenvalues i) / (kB * temperature)))
          / boltzmannNormalization eigenvalues temperature)
    ∧ (∀ i, Complex.abs (get_boltzmann_state eigenvalues temperature phase i)
        = Real.sqrt (Real.exp (-(eigenvalues i) / (kB * temperature)))
          / boltzmannNormalization eigenvalues temperature)
    ∧ (∀ i, 0 ≤ boltzmannDistribution eigenvalues temperature i) := by
  refine ⟨?_, ?_, ?_, ?_, fun i => boltzmannDistribution_nonneg _ _ i⟩
  · rw [norm2_of_abs_eq _ _ (abs_random_boltzmann_component eigenvalues temperature randDraws),
      boltzmann_norm_core eigenvalues temperature hn]
  · rw [norm2_of_abs_eq _ _ (abs_boltzmann_component eigenvalues temperature phase),
      boltzmann_norm_core eigenvalues temperature hn]
  · intro i
    rw [abs_random_boltzmann_component, sqrt_exp_neg]
    rfl
  · intro i
    rw [abs_boltzmann_component, sqrt_exp_neg]
    rfl

/-- Witness for C5: dimension 1, eigenvalue 0, temperature 1. -/
theorem boltzmann_state_spec_witness :
    norm2 (get_random_boltzmann_state exampleEigenvalues 1 (exampleDraws 0)) = 1
    ∧ norm2 (get_boltzmann_state exampleEigenvalues 1 0) = 1 :=
  ⟨(boltzmann_state_spec exampleEigenvalues 1 (exampleDraws 0) 0
      (by decide) (by norm_num)).1,
   (boltzmann_state_spec exampleEigenvalues 1 (exampleDraws 0) 0
      (by decide) (by norm_num)).2.1⟩

/-- C9: the component-wise magnitudes of `get_random_boltzmann_state`
are the same across any two runs (any two random draw vectors), and
equal those of `get_boltzmann_state` for any fixed phase: randomness
enters only through the per-component phases. -/
theorem boltzmann_magnitude_hyperproperty {n : ℕ} (eigenvalues : Fin n → ℝ)
    (temperature : ℝ) (draws1 draws2 : Fin n → ℝ) (phase : ℝ) (i : Fin n) :
    Complex.abs (get_random_boltzmann_state eigenvalues temperature draws1 i)
      = Complex.abs (get_random_boltzmann_state eigenvalues temperature draws2 i)
    ∧ Complex.abs (get_random_boltzmann_state eigenvalues temperature draws1 i)
      = Complex.abs (get_boltzmann_state eigenvalues temperature phase i) := by
  constructor
  · rw [abs_random_boltzmann_component, abs_random_boltzmann_component]
  · rw [abs_random_boltzmann_component, abs_boltzmann_component]

/-- C10: building the full Hamiltonian with the Bloch fraction omitted
(`None`) returns the same operator as building it with the zero Bloch
fraction, for every system, shape, and resolution: the Gamma point is
the default crystal momentum. -/
theorem get_full_hamiltonian_default_bloch (system : PeriodicSystem)
    (shape resolution : ℕ) :
    get_full_hamiltonian system shape resolution none
      = get_full_hamiltonian system shape resolution (some 0) := rfl

end CoherentRates
